import Mathlib

/-
Verification development for the PDF structural editing and splitting engine
of `src/js/pdf-processor.js` (class `PDFProcessor`).

The engine is embedded shallowly:

* Serialization of a contiguous page window is abstracted by a size function
  `sz : Nat → Nat → Nat`, where `sz start len` is the byte length produced by
  copying pages `[start, start+len)` into a fresh document and saving it with
  `{ useObjectStreams: true, addDefaultPage: false }`.  (pdf-lib ignores the
  extra `compress` key used at some call sites, so measurement saves and the
  final output saves produce the same bytes.)
* The loops of `splitBySize` are written with explicit fuel; the fuel supplied
  at the call sites is proved sufficient where a theorem needs termination.
* Progress callbacks are modelled by the list of reported percentages, in
  chronological order.
* Errors thrown by the JavaScript code are modelled by structured
  `SplitError` values carrying the numbers that the thrown message
  interpolates.
-/

namespace PdfProc

/-- Structured form of the errors thrown by `splitBySize`.
`limitTooSmall m l` is the guard error whose message names the measured
minimum single-page size `m` and the selected limit `l`;
`pageTooLarge p s l` is the per-page error naming the 1-based page `p`, its
measured single-page size `s` and the limit `l`. `outOfFuel` is an artifact
of the fuelled embedding and is proved unreachable where it matters. -/
inductive SplitError where
  | unableToAnalyze : SplitError
  | limitTooSmall (minSize limit : Nat) : SplitError
  | pageTooLarge (page oneSize limit : Nat) : SplitError
  | outOfFuel : SplitError
  deriving DecidableEq, Repr

/-- Progress percentage reported inside the binary-search loop:
`Math.min(95, Math.round((candidateEnd / pageCount) * 100))`.  The rational
rounding here agrees with the JS float computation at the exactly
representable ratios used in this development. -/
def pctOf (candidateEnd pageCount : Nat) : Nat :=
  min 95 ((200 * candidateEnd + pageCount) / (2 * pageCount))

/-- Exponential probe of `splitBySize` (pdf-processor.js lines 1031-1055).
State `(low, high, best)` mirrors the JS variables `low`, `high`,
`bestFitPages` (`best = 0` encodes `bestFitDoc === null`).  Returns the state
at loop exit. -/
def probeLoop (sz : Nat → Nat → Nat) (limit pageCount start : Nat) :
    Nat → Nat → Nat → Nat → Nat × Nat × Nat
  | 0, low, high, best => (low, high, best)
  | fuel + 1, low, high, best =>
    let candidateEnd := min (start + high) pageCount
    let size := sz start (candidateEnd - start)
    if size ≤ limit ∧ candidateEnd < pageCount then
      probeLoop sz limit pageCount start fuel (high + 1)
        (min (high * 2) (pageCount - start)) (candidateEnd - start)
    else if size ≤ limit then
      (candidateEnd - start, high, candidateEnd - start)
    else
      (low, high, best)

/-- Binary search of `splitBySize` (pdf-processor.js lines 1059-1079), with
`mid = (l + r) / 2`.  Returns the final `bestFitPages` together with the list
of progress percentages reported by the loop, in order. -/
def binLoop (sz : Nat → Nat → Nat) (limit pageCount start : Nat) :
    Nat → Nat → Nat → Nat → Nat × List Nat
  | 0, _, _, best => (best, [])
  | fuel + 1, l, r, best =>
    if l ≤ r then
      if sz start ((l + r) / 2) ≤ limit then
        ((binLoop sz limit pageCount start fuel ((l + r) / 2 + 1) r ((l + r) / 2)).1,
          pctOf (start + (l + r) / 2) pageCount ::
            (binLoop sz limit pageCount start fuel ((l + r) / 2 + 1) r ((l + r) / 2)).2)
      else
        ((binLoop sz limit pageCount start fuel l ((l + r) / 2 - 1) best).1,
          pctOf (start + (l + r) / 2) pageCount ::
            (binLoop sz limit pageCount start fuel l ((l + r) / 2 - 1) best).2)
    else (best, [])

/-- One chunk search of `splitBySize`: the exponential probe followed by the
binary search, with the brackets `l`, `r` computed exactly as on
pdf-processor.js lines 1057-1058.  Returns the final `bestFitPages` and the
reported percentages. -/
def searchChunk (sz : Nat → Nat → Nat) (limit pageCount start : Nat) :
    Nat × List Nat :=
  let pr := probeLoop sz limit pageCount start (pageCount + 1) 1 1 0
  let l := max 1 (min pr.1 (pageCount - start))
  let r := max l (min pr.2.1 (pageCount - start))
  binLoop sz limit pageCount start (pageCount + 2) l r pr.2.2

/-- Outer chunking loop of `splitBySize` (pdf-processor.js lines 1024-1096).
Produces the reported percentages and either the list of emitted chunks
(start page, page count) or the structured error thrown.  On the error path
the JS code reports percentage `0` and throws, so the local `outputs` array is
discarded: an error result carries no output documents. -/
def splitLoop (sz : Nat → Nat → Nat) (limit pageCount : Nat) :
    Nat → Nat → List Nat × Except SplitError (List (Nat × Nat))
  | 0, start =>
    if pageCount ≤ start then ([], .ok []) else ([], .error .outOfFuel)
  | fuel + 1, start =>
    if pageCount ≤ start then ([], .ok [])
    else
      let bres := searchChunk sz limit pageCount start
      if bres.1 = 0 then
        (bres.2 ++ [0], .error (.pageTooLarge (start + 1) (sz start 1) limit))
      else
        let rest := splitLoop sz limit pageCount fuel (start + bres.1)
        (bres.2 ++ rest.1,
          match rest.2 with
          | .ok outs => .ok ((start, bres.1) :: outs)
          | .error e => .error e)

/-- Minimum of a list of naturals with explicit seed, mirroring the JS fold
`minSinglePage = Math.min(minSinglePage, size)`. -/
def listMin : Nat → List Nat → Nat
  | a, [] => a
  | a, b :: t => listMin (min a b) t

/-- Guard sampling of `splitBySize` (pdf-processor.js lines 1005-1013): the
minimum single-page serialized size over the first `min 5 pageCount` pages;
`none` when there are no pages to sample (`minSinglePage === Infinity`). -/
def sampleMin (sz : Nat → Nat → Nat) (pageCount : Nat) : Option Nat :=
  match min 5 pageCount with
  | 0 => none
  | k + 1 => some (listMin (sz 0 1) ((List.range (k + 1)).map (fun i => sz i 1)))

/-- `splitBySize` for an already computed byte limit: guard, then the chunking
loop (pdf-processor.js lines 1003-1097). -/
def splitBySizeCore (sz : Nat → Nat → Nat) (pageCount limit : Nat) :
    List Nat × Except SplitError (List (Nat × Nat)) :=
  match sampleMin sz pageCount with
  | none => ([], .error .unableToAnalyze)
  | some m =>
    if limit < m then ([0], .error (.limitTooSmall m limit))
    else splitLoop sz limit pageCount (pageCount + 1) 0

/-- A JavaScript number argument: non-numeric (`NaN` after `Number(...)`) or a
rational value. -/
inductive JSNum where
  | nan : JSNum
  | num (q : ℚ) : JSNum

/-- Models `Number(maxSizeMB) || 10`: non-numeric and `0` fall back to 10. -/
def jsOrTen : JSNum → ℚ
  | .nan => 10
  | .num q => if q = 0 then 10 else q

/-- JavaScript `Math.round`: round half toward positive infinity. -/
def jsRound (q : ℚ) : ℤ := ⌊q + 1 / 2⌋

/-- The byte limit computed on pdf-processor.js line 1002:
`Math.max(1, Math.round(Number(maxSizeMB) || 10)) * 1024 * 1024`. -/
def limitBytes (maxSizeMB : JSNum) : Nat :=
  (max 1 (jsRound (jsOrTen maxSizeMB))).toNat * (1024 * 1024)

/-- Entry point of `splitBySize` as called with a `maxSizeMB` argument. -/
def splitBySizeJS (sz : Nat → Nat → Nat) (pageCount : Nat) (maxSizeMB : JSNum) :
    List Nat × Except SplitError (List (Nat × Nat)) :=
  splitBySizeCore sz pageCount (limitBytes maxSizeMB)

/-- The source pages contained in one output chunk `(start, len)`. -/
def chunkPages (c : Nat × Nat) : List Nat :=
  (List.range c.2).map (c.1 + ·)

/-- Loop of `splitByPagesFixed` (pdf-processor.js lines 1778-1790): `from` is
1-based, each chunk covers pages `from..to` and is recorded as
(0-based start, page count). -/
def pagesLoop (pageCount chunkSize : Nat) : Nat → Nat → List (Nat × Nat)
  | 0, _ => []
  | fuel + 1, frm =>
    if frm ≤ pageCount then
      let upto := min pageCount (frm + chunkSize - 1)
      (frm - 1, upto - frm + 1) :: pagesLoop pageCount chunkSize fuel (upto + 1)
    else []

/-- `splitByPagesFixed` (pdf-processor.js lines 1771-1796):
`chunkSize = Math.max(1, Number(pagesPerChunk) | 0)`. -/
def splitByPagesFixed (pageCount pagesPerChunk : Nat) : List (Nat × Nat) :=
  pagesLoop pageCount (max 1 pagesPerChunk) (pageCount + 1) 1

/-- A candidate chunk length is sound when it is zero (no fit recorded) or it
denotes a nonempty page window from `start` that was measured to fit. -/
def goodBest (sz : Nat → Nat → Nat) (limit pageCount start b : Nat) : Prop :=
  b = 0 ∨ (1 ≤ b ∧ b ≤ pageCount - start ∧ sz start b ≤ limit)

/-- Normal form of one `probeLoop` step: the candidate window length is
`min high (pageCount - start)`. -/
theorem probeLoop_succ (sz : Nat → Nat → Nat) (limit pageCount start : Nat)
    (fuel low high best : Nat) (h : start ≤ pageCount) :
    probeLoop sz limit pageCount start (fuel + 1) low high best =
      if sz start (min high (pageCount - start)) ≤ limit ∧ high < pageCount - start then
        probeLoop sz limit pageCount start fuel (high + 1)
          (min (high * 2) (pageCount - start)) (min high (pageCount - start))
      else if sz start (min high (pageCount - start)) ≤ limit then
        (min high (pageCount - start), high, min high (pageCount - start))
      else (low, high, best) := by
  have h1 : min (start + high) pageCount - start = min high (pageCount - start) := by
    omega
  have h2 : (min (start + high) pageCount < pageCount) ↔ (high < pageCount - start) := by
    omega
  simp only [probeLoop, h1, h2]

theorem probeLoop_sound (sz : Nat → Nat → Nat) (limit pageCount start : Nat)
    (hpc : start < pageCount) :
    ∀ fuel low high best, 1 ≤ high →
      goodBest sz limit pageCount start best →
      goodBest sz limit pageCount start
        (probeLoop sz limit pageCount start fuel low high best).2.2 := by
  intro fuel
  induction fuel with
  | zero => intro low high best _ hb; simpa [probeLoop] using hb
  | succ fuel ih =>
    intro low high best hhigh hb
    rw [probeLoop_succ sz limit pageCount start fuel low high best (by omega)]
    by_cases h1 : sz start (min high (pageCount - start)) ≤ limit ∧ high < pageCount - start
    · rw [if_pos h1]
      exact ih _ _ _ (by omega) (Or.inr ⟨by omega, by omega, h1.1⟩)
    · rw [if_neg h1]
      by_cases h2 : sz start (min high (pageCount - start)) ≤ limit
      · rw [if_pos h2]
        show goodBest sz limit pageCount start (min high (pageCount - start))
        exact Or.inr ⟨by omega, by omega, h2⟩
      · rw [if_neg h2]
        exact hb

theorem binLoop_sound (sz : Nat → Nat → Nat) (limit pageCount start : Nat) :
    ∀ fuel l r best, 1 ≤ l → r ≤ pageCount - start →
      goodBest sz limit pageCount start best →
      goodBest sz limit pageCount start
        (binLoop sz limit pageCount start fuel l r best).1 := by
  intro fuel
  induction fuel with
  | zero => intro l r best _ _ hb; simpa [binLoop] using hb
  | succ fuel ih =>
    intro l r best hl hr hb
    rw [binLoop]
    by_cases hlr : l ≤ r
    · rw [if_pos hlr]
      by_cases hfit : sz start ((l + r) / 2) ≤ limit
      · rw [if_pos hfit]
        exact ih _ _ _ (by omega) hr (Or.inr ⟨by omega, by omega, hfit⟩)
      · rw [if_neg hfit]
        exact ih _ _ _ hl (by omega) hb
    · rw [if_neg hlr]
      exact hb

theorem probeLoop_pos (sz : Nat → Nat → Nat) (limit pageCount start : Nat)
    (hpc : start < pageCount) :
    ∀ fuel low high best, 1 ≤ high → 1 ≤ best →
      1 ≤ (probeLoop sz limit pageCount start fuel low high best).2.2 := by
  intro fuel
  induction fuel with
  | zero => intro low high best _ hb; simpa [probeLoop] using hb
  | succ fuel ih =>
    intro low high best hhigh hb
    rw [probeLoop_succ sz limit pageCount start fuel low high best (by omega)]
    by_cases h1 : sz start (min high (pageCount - start)) ≤ limit ∧ high < pageCount - start
    · rw [if_pos h1]
      exact ih _ _ _ (by omega) (by omega)
    · rw [if_neg h1]
      by_cases h2 : sz start (min high (pageCount - start)) ≤ limit
      · rw [if_pos h2]
        show 1 ≤ min high (pageCount - start)
        omega
      · rw [if_neg h2]
        exact hb

theorem binLoop_pos (sz : Nat → Nat → Nat) (limit pageCount start : Nat) :
    ∀ fuel l r best, 1 ≤ l → 1 ≤ best →
      1 ≤ (binLoop sz limit pageCount start fuel l r best).1 := by
  intro fuel
  induction fuel with
  | zero => intro l r best _ hb; simpa [binLoop] using hb
  | succ fuel ih =>
    intro l r best hl hb
    rw [binLoop]
    by_cases hlr : l ≤ r
    · rw [if_pos hlr]
      by_cases hfit : sz start ((l + r) / 2) ≤ limit
      · rw [if_pos hfit]
        exact ih _ _ _ (by omega) (by omega)
      · rw [if_neg hfit]
        exact ih _ _ _ hl hb
    · rw [if_neg hlr]
      exact hb

/-- If the first probe of a chunk (a single page) fits, the search result is
positive. -/
theorem probeLoop_zero (sz : Nat → Nat → Nat) (limit pageCount start : Nat)
    (hpc : start < pageCount) (hfit : sz start 1 ≤ limit) :
    ∀ fuel low, 1 ≤ (probeLoop sz limit pageCount start (fuel + 1) low 1 0).2.2 := by
  intro fuel low
  rw [probeLoop_succ sz limit pageCount start fuel low 1 0 (by omega)]
  have hmin : min 1 (pageCount - start) = 1 := by omega
  rw [hmin]
  by_cases h1 : sz start 1 ≤ limit ∧ 1 < pageCount - start
  · rw [if_pos h1]
    exact probeLoop_pos sz limit pageCount start hpc _ _ _ _ (by omega) (by omega)
  · rw [if_neg h1, if_pos hfit]

/-- The source pages of one chunk form a contiguous index range. -/
theorem chunkPages_eq_range' (c : Nat × Nat) : chunkPages c = List.range' c.1 c.2 := by
  rw [chunkPages, List.range'_eq_map_range]

theorem searchChunk_good (sz : Nat → Nat → Nat) (limit pageCount start : Nat)
    (hstart : start < pageCount) :
    goodBest sz limit pageCount start (searchChunk sz limit pageCount start).1 := by
  rw [searchChunk]
  apply binLoop_sound sz limit pageCount start _ _ _ _ (by omega)
  · have h1 : 1 ≤ pageCount - start := by omega
    omega
  · exact probeLoop_sound sz limit pageCount start hstart _ _ _ _ (by omega) (Or.inl rfl)

/-- When the chunk search reports no fit, even a single page at `start`
measured over the limit. -/
theorem searchChunk_zero (sz : Nat → Nat → Nat) (limit pageCount start : Nat)
    (hstart : start < pageCount)
    (hz : (searchChunk sz limit pageCount start).1 = 0) :
    limit < sz start 1 := by
  by_contra hle
  push_neg at hle
  have h1 : 1 ≤ (searchChunk sz limit pageCount start).1 := by
    rw [searchChunk]
    apply binLoop_pos sz limit pageCount start _ _ _ _ (by omega)
    exact probeLoop_zero sz limit pageCount start hstart hle _ _
  omega

theorem splitLoop_ok (sz : Nat → Nat → Nat) (limit pageCount : Nat) :
    ∀ fuel start tr outs,
      splitLoop sz limit pageCount fuel start = (tr, .ok outs) →
      ((outs.map chunkPages).flatten = List.range' start (pageCount - start)
        ∧ ∀ c ∈ outs, 1 ≤ c.2 ∧ c.1 + c.2 ≤ pageCount ∧ sz c.1 c.2 ≤ limit) := by
  intro fuel
  induction fuel with
  | zero =>
    intro start tr outs h
    rw [splitLoop] at h
    split at h
    · rename_i hle
      simp only [Prod.mk.injEq, Except.ok.injEq] at h
      obtain ⟨-, rfl⟩ := h
      simp [List.range'_eq_nil.mpr (by omega : pageCount - start = 0)]
    · simp only [Prod.mk.injEq] at h
      exact absurd h.2 (by simp)
  | succ fuel ih =>
    intro start tr outs h
    rw [splitLoop] at h
    split at h
    · rename_i hle
      simp only [Prod.mk.injEq, Except.ok.injEq] at h
      obtain ⟨-, rfl⟩ := h
      simp [List.range'_eq_nil.mpr (by omega : pageCount - start = 0)]
    · rename_i hlt
      have hstart : start < pageCount := by omega
      simp only at h
      split at h
      · simp only [Prod.mk.injEq] at h
        exact absurd h.2 (by simp)
      · rename_i hbne
        obtain hz | ⟨hb1, hb2, hb3⟩ := searchChunk_good sz limit pageCount start hstart
        · exact absurd hz hbne
        · simp only [Prod.mk.injEq] at h
          rcases hrest : splitLoop sz limit pageCount fuel
              (start + (searchChunk sz limit pageCount start).1) with ⟨tr', res'⟩
          have h2 := h.2
          rw [hrest] at h2
          rcases res' with e | outs'
          · simp at h2
          · simp only [Except.ok.injEq] at h2
            obtain ⟨hflat, hall⟩ := ih _ _ _ hrest
            subst h2
            constructor
            · rw [List.map_cons, List.flatten_cons, chunkPages_eq_range', hflat]
              have hn : pageCount - (start + (searchChunk sz limit pageCount start).1)
                  = pageCount - start - (searchChunk sz limit pageCount start).1 := by
                omega
              rw [hn, List.range'_append_1]
              congr 1
              omega
            · intro c hc
              rcases List.mem_cons.mp hc with rfl | hc'
              · exact ⟨hb1, by omega, hb3⟩
              · exact hall c hc'

theorem pagesLoop_nil (pageCount cs : Nat) :
    ∀ fuel frm, pageCount < frm → pagesLoop pageCount cs fuel frm = [] := by
  intro fuel frm h
  cases fuel with
  | zero => rw [pagesLoop]
  | succ fuel => rw [pagesLoop, if_neg (by omega)]

theorem pagesLoop_spec (pageCount cs : Nat) (hcs : 1 ≤ cs) :
    ∀ fuel frm, 1 ≤ frm → pageCount + 2 - frm ≤ fuel →
      (((pagesLoop pageCount cs fuel frm).map chunkPages).flatten
          = List.range' (frm - 1) (pageCount + 1 - frm))
      ∧ (∀ c ∈ pagesLoop pageCount cs fuel frm, 1 ≤ c.2 ∧ c.2 ≤ cs)
      ∧ List.Chain' (fun a _ => a.2 = cs) (pagesLoop pageCount cs fuel frm) := by
  intro fuel
  induction fuel with
  | zero =>
    intro frm h1 h2
    rw [pagesLoop]
    refine ⟨?_, by simp, by simp⟩
    simp [List.range'_eq_nil.mpr (by omega : pageCount + 1 - frm = 0)]
  | succ fuel ih =>
    intro frm h1 h2
    rw [pagesLoop]
    by_cases hle : frm ≤ pageCount
    · rw [if_pos hle]
      obtain ⟨ihflat, ihall, ihchain⟩ :=
        ih (min pageCount (frm + cs - 1) + 1) (by omega) (by omega)
      refine ⟨?_, ?_, ?_⟩
      · rw [List.map_cons, List.flatten_cons, chunkPages_eq_range', ihflat]
        have e2 : min pageCount (frm + cs - 1) + 1 - 1
            = (frm - 1) + (min pageCount (frm + cs - 1) - frm + 1) := by omega
        rw [e2, List.range'_append_1]
        congr 1
        omega
      · intro c hc
        rcases List.mem_cons.mp hc with rfl | hc'
        · exact ⟨by omega, by omega⟩
        · exact ihall c hc'
      · rw [List.chain'_cons']
        refine ⟨?_, ihchain⟩
        intro b hb
        have hne : pagesLoop pageCount cs fuel (min pageCount (frm + cs - 1) + 1) ≠ [] := by
          intro hnil
          rw [hnil] at hb
          simp at hb
        have hlt : min pageCount (frm + cs - 1) + 1 ≤ pageCount := by
          by_contra hgt
          exact hne (pagesLoop_nil pageCount cs fuel _ (by omega))
        show min pageCount (frm + cs - 1) - frm + 1 = cs
        omega
    · rw [if_neg hle]
      refine ⟨?_, by simp, by simp⟩
      simp [List.range'_eq_nil.mpr (by omega : pageCount + 1 - frm = 0)]

/-- C1: for every split invocation that completes without error, the
concatenation of the pages of the output documents, in emission order, is the
source page sequence in original order with no gaps and no duplicates; every
output document is non-empty; in size mode every output document's measured
serialized size is at most the requested byte limit; in pages mode every
output document has at most `pagesPerChunk` pages and only the last chunk may
be smaller. -/
theorem C1_split_completeness
    (sz : Nat → Nat → Nat) (pageCount limit : Nat)
    (tr : List Nat) (outs : List (Nat × Nat))
    (hrun : splitBySizeCore sz pageCount limit = (tr, .ok outs))
    (n k : Nat) (hk : 1 ≤ k) :
    ((outs.map chunkPages).flatten = List.range pageCount
      ∧ ∀ c ∈ outs, 1 ≤ c.2 ∧ sz c.1 c.2 ≤ limit)
    ∧ (((splitByPagesFixed n k).map chunkPages).flatten = List.range n
      ∧ (∀ c ∈ splitByPagesFixed n k, 1 ≤ c.2 ∧ c.2 ≤ k)
      ∧ List.Chain' (fun a _ => a.2 = k) (splitByPagesFixed n k)) := by
  constructor
  · have hl : splitLoop sz limit pageCount (pageCount + 1) 0 = (tr, .ok outs) := by
      rw [splitBySizeCore] at hrun
      split at hrun
      · simp at hrun
      · split at hrun
        · simp at hrun
        · exact hrun
    obtain ⟨hflat, hall⟩ := splitLoop_ok sz limit pageCount _ _ _ _ hl
    refine ⟨?_, fun c hc => ⟨(hall c hc).1, (hall c hc).2.2⟩⟩
    rw [hflat, List.range_eq_range']
    congr 1
  · have hmax : max 1 k = k := by omega
    obtain ⟨hflat, hall, hchain⟩ :=
      pagesLoop_spec n (max 1 k) (by omega) (n + 1) 1 (by omega) (by omega)
    rw [splitByPagesFixed, hmax]
    rw [hmax] at hflat hall hchain
    refine ⟨?_, hall, hchain⟩
    rw [hflat, List.range_eq_range']
    congr 1

/-- Concrete instance of C1: three pages whose window of length `l` measures
`l` bytes, limit 2 bytes, and pages mode with chunk size 2. -/
theorem C1_split_completeness_witness :
    splitBySizeCore (fun _ l => l) 3 2 = ([95, 95], .ok [(0, 2), (2, 1)])
    ∧ ((([((0 : Nat), (2 : Nat)), (2, 1)]).map chunkPages).flatten = List.range 3
        ∧ ∀ c ∈ [((0 : Nat), (2 : Nat)), (2, 1)],
            1 ≤ c.2 ∧ (fun _ l => l : Nat → Nat → Nat) c.1 c.2 ≤ 2)
    ∧ (((splitByPagesFixed 3 2).map chunkPages).flatten = List.range 3
        ∧ (∀ c ∈ splitByPagesFixed 3 2, 1 ≤ c.2 ∧ c.2 ≤ 2)
        ∧ List.Chain' (fun a _ => a.2 = 2) (splitByPagesFixed 3 2)) := by
  have h := C1_split_completeness (fun _ l => l) 3 2 [95, 95] [(0, 2), (2, 1)]
    rfl 3 2 (by omega)
  exact ⟨rfl, h.1, h.2⟩

theorem listMin_gt (limit : Nat) :
    ∀ l a, limit < a → (∀ x ∈ l, limit < x) → limit < listMin a l := by
  intro l
  induction l with
  | nil => intro a ha _; simpa [listMin] using ha
  | cons b t ih =>
    intro a ha hall
    rw [listMin]
    exact ih _ (by have := hall b (by simp); omega)
      (fun x hx => hall x (by simp [hx]))

/-- The thrown error names the measured sizes and the requested limit, in the
sense of the message strings interpolated on pdf-processor.js lines 1018 and
1088. -/
def errorNamesSizes (sz : Nat → Nat → Nat) (limit : Nat) : SplitError → Prop
  | .limitTooSmall m l => l = limit ∧ limit < m
  | .pageTooLarge p s l => l = limit ∧ 1 ≤ p ∧ s = sz (p - 1) 1 ∧ limit < s
  | _ => False

/-- Under superset monotonicity of the size measure, a page that does not fit
alone can never be covered by an emitted chunk, so the outer loop reaches an
explicit per-page error (or stops at one even earlier). -/
theorem splitLoop_bad (sz : Nat → Nat → Nat) (limit pageCount j : Nat)
    (hj : j < pageCount) (hjs : limit < sz j 1)
    (hmono : ∀ i j' len, i ≤ j' → j' < i + len → sz j' 1 ≤ sz i len) :
    ∀ fuel start, start ≤ j → j - start < fuel →
      ∃ tr p, splitLoop sz limit pageCount fuel start
          = (tr, .error (.pageTooLarge p (sz (p - 1) 1) limit))
        ∧ 1 ≤ p ∧ limit < sz (p - 1) 1 := by
  intro fuel
  induction fuel with
  | zero => intro start _ hf; omega
  | succ fuel ih =>
    intro start hsj hf
    simp only [splitLoop]
    rw [if_neg (by omega : ¬ pageCount ≤ start)]
    by_cases hb0 : (searchChunk sz limit pageCount start).1 = 0
    · rw [if_pos hb0]
      refine ⟨_, start + 1, rfl, by omega, ?_⟩
      simp only [Nat.add_sub_cancel]
      exact searchChunk_zero sz limit pageCount start (by omega) hb0
    · rw [if_neg hb0]
      obtain hz | ⟨hb1, hb2, hb3⟩ := searchChunk_good sz limit pageCount start (by omega)
      · exact absurd hz hb0
      · have hstep : start + (searchChunk sz limit pageCount start).1 ≤ j := by
          by_contra hgt
          push_neg at hgt
          have := hmono start j (searchChunk sz limit pageCount start).1 hsj hgt
          omega
        obtain ⟨tr', p, heq, hp1, hps⟩ := ih _ hstep (by omega)
        rw [heq]
        exact ⟨_, p, rfl, hp1, hps⟩

/-- C2: whenever the requested limit is below the smallest single-page
serialization, or some page alone serializes over the limit (while sizes are
superset-monotone), `splitBySize` fails with an explicit error naming the
measured minimum (or per-page) size and the requested limit; the error result
carries no output documents. -/
theorem C2_infeasible_split_fails (sz : Nat → Nat → Nat) (pageCount limit : Nat)
    (hmono : ∀ i j len, i ≤ j → j < i + len → sz j 1 ≤ sz i len)
    (hbad : ∃ j, j < pageCount ∧ limit < sz j 1) :
    ∃ tr e, splitBySizeCore sz pageCount limit = (tr, .error e)
      ∧ errorNamesSizes sz limit e := by
  obtain ⟨j, hj, hjs⟩ := hbad
  rw [splitBySizeCore]
  split
  · rename_i hsm
    exfalso
    rw [sampleMin] at hsm
    split at hsm
    · rename_i h0
      omega
    · simp at hsm
  · rename_i m hsm
    by_cases hlim : limit < m
    · rw [if_pos hlim]
      refine ⟨[0], _, rfl, ?_⟩
      exact ⟨rfl, hlim⟩
    · rw [if_neg hlim]
      obtain ⟨tr, p, heq, hp1, hps⟩ :=
        splitLoop_bad sz limit pageCount j hj hjs hmono (pageCount + 1) 0
          (by omega) (by omega)
      refine ⟨tr, _, heq, ?_⟩
      exact ⟨rfl, hp1, rfl, hps⟩

/-- Concrete instance of C2: two pages, every window measures 100 bytes,
limit 10 bytes. -/
theorem C2_infeasible_split_fails_witness :
    (∀ i j len : Nat, i ≤ j → j < i + len →
        (fun _ _ => (100 : Nat)) j 1 ≤ (fun _ _ => (100 : Nat)) i len)
    ∧ ∃ tr e, splitBySizeCore (fun _ _ => 100) 2 10 = (tr, .error e)
        ∧ errorNamesSizes (fun _ _ => 100) 10 e := by
  refine ⟨fun i j len _ _ => Nat.le_refl 100, ?_⟩
  exact C2_infeasible_split_fails (fun _ _ => 100) 2 10
    (fun i j len _ _ => Nat.le_refl 100) ⟨0, by omega, by decide⟩

theorem binLoop_max (sz : Nat → Nat → Nat) (limit pageCount start M : Nat)
    (hMdown : ∀ k, 1 ≤ k → k ≤ M → sz start k ≤ limit)
    (hMmax : ∀ k, 1 ≤ k → k ≤ pageCount - start → sz start k ≤ limit → k ≤ M) :
    ∀ fuel l r best,
      1 ≤ l → r ≤ pageCount - start → r + 1 - l < fuel →
      best ≤ M → (M < l → best = M) → (l ≤ M → M ≤ r) →
      (binLoop sz limit pageCount start fuel l r best).1 = M := by
  intro fuel
  induction fuel with
  | zero => intro l r best _ _ hf _ _ _; omega
  | succ fuel ih =>
    intro l r best hl hr hf hbM hlow hhigh
    rw [binLoop]
    by_cases hlr : l ≤ r
    · rw [if_pos hlr]
      by_cases hfit : sz start ((l + r) / 2) ≤ limit
      · rw [if_pos hfit]
        show (binLoop sz limit pageCount start fuel ((l + r) / 2 + 1) r ((l + r) / 2)).1 = M
        have hmid : (l + r) / 2 ≤ M := hMmax _ (by omega) (by omega) hfit
        exact ih _ _ _ (by omega) hr (by omega) hmid (fun h => by omega)
          (fun h => hhigh (by omega))
      · rw [if_neg hfit]
        show (binLoop sz limit pageCount start fuel l ((l + r) / 2 - 1) best).1 = M
        have hmidgt : M < (l + r) / 2 := by
          by_contra hle2
          push_neg at hle2
          exact hfit (hMdown _ (by omega) hle2)
        exact ih _ _ _ hl (by omega) (by omega) hbM hlow (fun h => by omega)
    · rw [if_neg hlr]
      show best = M
      rcases Nat.lt_or_ge M l with h | h
      · exact hlow h
      · exact absurd (hhigh h) (by omega)

theorem probeLoop_max (sz : Nat → Nat → Nat) (limit pageCount start M : Nat)
    (hn : 1 ≤ pageCount - start)
    (hMdown : ∀ k, 1 ≤ k → k ≤ M → sz start k ≤ limit)
    (hMmax : ∀ k, 1 ≤ k → k ≤ pageCount - start → sz start k ≤ limit → k ≤ M)
    (hMle : M ≤ pageCount - start) :
    ∀ fuel high best lo hi b, 1 ≤ high → high ≤ pageCount - start →
      pageCount - start - high < fuel → best ≤ M → best < high →
      probeLoop sz limit pageCount start fuel (best + 1) high best = (lo, hi, b) →
      (b ≤ M
        ∧ (M < max 1 (min lo (pageCount - start)) → b = M)
        ∧ (max 1 (min lo (pageCount - start)) ≤ M →
            M ≤ max (max 1 (min lo (pageCount - start))) (min hi (pageCount - start)))) := by
  intro fuel
  induction fuel with
  | zero => intro high best lo hi b _ _ hfuel _ _ _; omega
  | succ fuel ih =>
    intro high best lo hi b hh1 hh2 hfuel hbM hbh heq
    rw [probeLoop_succ sz limit pageCount start fuel (best + 1) high best (by omega)] at heq
    have hmin : min high (pageCount - start) = high := by omega
    rw [hmin] at heq
    by_cases hA : sz start high ≤ limit ∧ high < pageCount - start
    · rw [if_pos hA] at heq
      have hhM : high ≤ M := hMmax high (by omega) (by omega) hA.1
      exact ih _ _ _ _ _ (by omega) (by omega) (by omega) hhM (by omega) heq
    · rw [if_neg hA] at heq
      by_cases hfit : sz start high ≤ limit
      · rw [if_pos hfit] at heq
        have hhn : high = pageCount - start := by
          rcases Nat.lt_or_ge high (pageCount - start) with h | h
          · exact absurd ⟨hfit, h⟩ hA
          · omega
        rw [hhn] at hfit
        have hnM : pageCount - start ≤ M := hMmax _ (by omega) (by omega) hfit
        cases heq
        refine ⟨by omega, fun _ => by omega, fun _ => by omega⟩
      · rw [if_neg hfit] at heq
        have hMh : M < high := by
          by_contra hle2
          push_neg at hle2
          exact hfit (hMdown high (by omega) hle2)
        cases heq
        refine ⟨hbM, by omega, by omega⟩

/-- Under a size measure monotone in window length, the probe + binary search
of `splitBySize` finds exactly the largest page count from `start` whose
measured serialization fits within the limit. -/
theorem searchChunk_max (sz : Nat → Nat → Nat) (limit pageCount start : Nat)
    (hstart : start < pageCount)
    (hmono : ∀ a b, a ≤ b → sz start a ≤ sz start b) :
    (searchChunk sz limit pageCount start).1
      = Nat.findGreatest (fun k => sz start k ≤ limit) (pageCount - start) := by
  set M := Nat.findGreatest (fun k => sz start k ≤ limit) (pageCount - start) with hM
  have hMle : M ≤ pageCount - start := Nat.findGreatest_le _
  have hMdown : ∀ k, 1 ≤ k → k ≤ M → sz start k ≤ limit := by
    intro k h1 h2
    have hMne : M ≠ 0 := by omega
    have hMfit := Nat.findGreatest_of_ne_zero hM.symm hMne
    exact le_trans (hmono k M h2) hMfit
  have hMmax : ∀ k, 1 ≤ k → k ≤ pageCount - start → sz start k ≤ limit → k ≤ M :=
    fun k _ hk hfit => Nat.le_findGreatest hk hfit
  have hn : 1 ≤ pageCount - start := by omega
  simp only [searchChunk]
  rcases hpr : probeLoop sz limit pageCount start (pageCount + 1) 1 1 0 with ⟨lo, hi, b⟩
  obtain ⟨hb, hlow, hhigh⟩ :=
    probeLoop_max sz limit pageCount start M hn hMdown hMmax hMle
      (pageCount + 1) 1 0 lo hi b (by omega) (by omega) (by omega) (by omega)
      (by omega) hpr
  exact binLoop_max sz limit pageCount start M hMdown hMmax (pageCount + 2)
    (max 1 (min lo (pageCount - start)))
    (max (max 1 (min lo (pageCount - start))) (min hi (pageCount - start))) b
    (by omega) (by omega) (by omega) hb hlow hhigh

theorem splitLoop_chain (sz : Nat → Nat → Nat) (limit pageCount : Nat)
    (hmono : ∀ s a b, a ≤ b → sz s a ≤ sz s b) :
    ∀ fuel start tr outs,
      splitLoop sz limit pageCount fuel start = (tr, .ok outs) →
      ((∀ c ∈ outs, c.2 = Nat.findGreatest (fun k => sz c.1 k ≤ limit) (pageCount - c.1))
        ∧ List.Chain' (fun a b => limit < sz a.1 (a.2 + b.2)) outs
        ∧ (∀ c ∈ outs.head?, c.1 = start)) := by
  intro fuel
  induction fuel with
  | zero =>
    intro start tr outs h
    rw [splitLoop] at h
    split at h
    · simp only [Prod.mk.injEq, Except.ok.injEq] at h
      obtain ⟨-, rfl⟩ := h
      exact ⟨by simp, by simp, by simp⟩
    · simp only [Prod.mk.injEq] at h
      exact absurd h.2 (by simp)
  | succ fuel ih =>
    intro start tr outs h
    rw [splitLoop] at h
    split at h
    · simp only [Prod.mk.injEq, Except.ok.injEq] at h
      obtain ⟨-, rfl⟩ := h
      exact ⟨by simp, by simp, by simp⟩
    · rename_i hlt
      have hstart : start < pageCount := by omega
      simp only at h
      split at h
      · simp only [Prod.mk.injEq] at h
        exact absurd h.2 (by simp)
      · rename_i hbne
        obtain hz | ⟨hb1, hb2, hb3⟩ := searchChunk_good sz limit pageCount start hstart
        · exact absurd hz hbne
        · simp only [Prod.mk.injEq] at h
          rcases hrest : splitLoop sz limit pageCount fuel
              (start + (searchChunk sz limit pageCount start).1) with ⟨tr', res'⟩
          have h2 := h.2
          rw [hrest] at h2
          rcases res' with e | outs'
          · simp at h2
          · simp only [Except.ok.injEq] at h2
            subst h2
            obtain ⟨ihmax, ihchain, ihhead⟩ := ih _ _ _ hrest
            obtain ⟨-, ihall⟩ := splitLoop_ok sz limit pageCount _ _ _ _ hrest
            have hbmax : (searchChunk sz limit pageCount start).1
                = Nat.findGreatest (fun k => sz start k ≤ limit) (pageCount - start) :=
              searchChunk_max sz limit pageCount start hstart
                (fun a b hab => hmono start a b hab)
            refine ⟨?_, ?_, ?_⟩
            · intro c hc
              rcases List.mem_cons.mp hc with rfl | hc'
              · exact hbmax
              · exact ihmax c hc'
            · rw [List.chain'_cons']
              refine ⟨?_, ihchain⟩
              intro y hy
              have hy' : y ∈ outs' := List.mem_of_mem_head? hy
              have hyfst : y.1 = start + (searchChunk sz limit pageCount start).1 :=
                ihhead y hy
              obtain ⟨hy1, hy2, -⟩ := ihall y hy'
              show limit < sz start ((searchChunk sz limit pageCount start).1 + y.2)
              have hk1 : Nat.findGreatest (fun k => sz start k ≤ limit) (pageCount - start)
                  < (searchChunk sz limit pageCount start).1 + y.2 := by
                rw [← hbmax]
                omega
              have hk2 : (searchChunk sz limit pageCount start).1 + y.2
                  ≤ pageCount - start := by
                omega
              have hng := Nat.findGreatest_is_greatest hk1 hk2
              exact Nat.lt_of_not_le (by simpa using hng)
            · intro c hc
              simp only [List.head?_cons, Option.mem_some_iff] at hc
              rw [← hc]

/-- C3: under a size measure monotone in window length, every successful
size-mode split is minimal: each emitted chunk holds the largest number of
consecutive pages from its start whose serialization fits the limit, and no
two consecutive output chunks could be merged into one chunk still within the
limit. -/
theorem C3_split_minimality (sz : Nat → Nat → Nat) (pageCount limit : Nat)
    (hmono : ∀ s a b, a ≤ b → sz s a ≤ sz s b)
    (tr : List Nat) (outs : List (Nat × Nat))
    (hrun : splitBySizeCore sz pageCount limit = (tr, .ok outs)) :
    List.Chain' (fun a b => limit < sz a.1 (a.2 + b.2)) outs
    ∧ ∀ c ∈ outs,
        c.2 = Nat.findGreatest (fun k => sz c.1 k ≤ limit) (pageCount - c.1) := by
  have hl : splitLoop sz limit pageCount (pageCount + 1) 0 = (tr, .ok outs) := by
    rw [splitBySizeCore] at hrun
    split at hrun
    · simp at hrun
    · split at hrun
      · simp at hrun
      · exact hrun
  obtain ⟨hmax, hchain, -⟩ := splitLoop_chain sz limit pageCount hmono _ _ _ _ hl
  exact ⟨hchain, hmax⟩

/-- Concrete instance of C3: three pages whose window of length `l` measures
`l` bytes, limit 2 bytes. -/
theorem C3_split_minimality_witness :
    List.Chain' (fun a b : Nat × Nat =>
      2 < (fun _ l => l : Nat → Nat → Nat) a.1 (a.2 + b.2)) [(0, 2), (2, 1)]
    ∧ ∀ c ∈ [((0 : Nat), (2 : Nat)), (2, 1)],
        c.2 = Nat.findGreatest
          (fun k => (fun _ l => l : Nat → Nat → Nat) c.1 k ≤ 2) (3 - c.1) :=
  C3_split_minimality (fun _ l => l) 3 2 (fun _ a b h => h) [95, 95]
    [(0, 2), (2, 1)] rfl

theorem pctOf_le (c n : Nat) : pctOf c n ≤ 95 := by
  rw [pctOf]
  omega

theorem binLoop_trace_le (sz : Nat → Nat → Nat) (limit pageCount start : Nat) :
    ∀ fuel l r best p, p ∈ (binLoop sz limit pageCount start fuel l r best).2 →
      p ≤ 95 := by
  intro fuel
  induction fuel with
  | zero => intro l r best p hp; simp [binLoop] at hp
  | succ fuel ih =>
    intro l r best p hp
    rw [binLoop] at hp
    by_cases hlr : l ≤ r
    · rw [if_pos hlr] at hp
      by_cases hfit : sz start ((l + r) / 2) ≤ limit
      · rw [if_pos hfit] at hp
        rcases List.mem_cons.mp hp with rfl | hp'
        · exact pctOf_le _ _
        · exact ih _ _ _ _ hp'
      · rw [if_neg hfit] at hp
        rcases List.mem_cons.mp hp with rfl | hp'
        · exact pctOf_le _ _
        · exact ih _ _ _ _ hp'
    · rw [if_neg hlr] at hp
      simp at hp

theorem searchChunk_trace_le (sz : Nat → Nat → Nat) (limit pageCount start p : Nat)
    (hp : p ∈ (searchChunk sz limit pageCount start).2) : p ≤ 95 := by
  simp only [searchChunk] at hp
  exact binLoop_trace_le sz limit pageCount start _ _ _ _ p hp

theorem splitLoop_trace_le (sz : Nat → Nat → Nat) (limit pageCount : Nat) :
    ∀ fuel start p, p ∈ (splitLoop sz limit pageCount fuel start).1 → p ≤ 95 := by
  intro fuel
  induction fuel with
  | zero =>
    intro start p hp
    rw [splitLoop] at hp
    split at hp <;> simp at hp
  | succ fuel ih =>
    intro start p hp
    rw [splitLoop] at hp
    split at hp
    · simp at hp
    · simp only at hp
      split at hp
      · simp only [List.mem_append, List.mem_singleton] at hp
        rcases hp with hp' | hp'
        · exact searchChunk_trace_le sz limit pageCount start p hp'
        · omega
      · simp only [List.mem_append] at hp
        rcases hp with hp' | hp'
        · exact searchChunk_trace_le sz limit pageCount start p hp'
        · exact ih _ _ hp'

/-- C8 (amended): every percentage reported by `splitBySize` lies within
0..100 — binary-search reports are capped at 95 and both error paths report 0.
The reported sequence is not monotonically non-decreasing in general; see the
counterexample. -/
theorem C8_percentages_bounded (sz : Nat → Nat → Nat) (pageCount limit p : Nat)
    (hp : p ∈ (splitBySizeCore sz pageCount limit).1) : p ≤ 95 := by
  rw [splitBySizeCore] at hp
  split at hp
  · simp at hp
  · split at hp
    · simp at hp
      omega
    · exact splitLoop_trace_le sz limit pageCount _ _ _ hp

theorem C8_percentages_bounded_witness :
    (95 : Nat) ∈ (splitBySizeCore (fun _ l => l) 3 2).1 ∧ (95 : Nat) ≤ 95 :=
  ⟨by decide, C8_percentages_bounded (fun _ l => l) 3 2 95 (by decide)⟩

/-- Size function for the C8 counterexample: from page 0 any window of five or
more pages measures 100 bytes; every other window measures 1 byte. -/
def szC8 : Nat → Nat → Nat := fun s l => if s = 0 ∧ 5 ≤ l then 100 else 1

/-- C8 counterexample: with eight pages and limit 10 the binary search first
reports 75 percent and then 63 percent, so the sequence of reported
percentages is not monotonically non-decreasing. -/
theorem C8_monotone_counterexample :
    (splitBySizeCore szC8 8 10).1 = [75, 63, 95]
    ∧ ¬ List.Chain' (· ≤ ·) (splitBySizeCore szC8 8 10).1 := by
  have h : (splitBySizeCore szC8 8 10).1 = [75, 63, 95] := rfl
  refine ⟨h, ?_⟩
  rw [h]
  intro hch
  have h2 := (List.chain'_cons.mp hch).1
  omega

/-- C9: `splitBySize` compares serialized sizes against
`max 1 (round maxSizeMB) * 1024 * 1024` bytes: a fractional megabyte limit is
rounded (half up) to a whole megabyte, with a floor of 1 MB, before any
comparison, and a non-numeric or zero limit defaults to 10 MB. -/
theorem C9_limit_rounding (sz : Nat → Nat → Nat) (pageCount : Nat) (q : ℚ)
    (hq : q ≠ 0) :
    splitBySizeJS sz pageCount (.num q)
        = splitBySizeCore sz pageCount ((max 1 ⌊q + 1 / 2⌋).toNat * 1048576)
    ∧ splitBySizeJS sz pageCount .nan = splitBySizeCore sz pageCount 10485760
    ∧ splitBySizeJS sz pageCount (.num 0) = splitBySizeCore sz pageCount 10485760
    ∧ limitBytes (.num (3 / 2)) = 2097152 := by
  have hten : limitBytes .nan = 10485760 := by
    rw [limitBytes, jsOrTen, jsRound]
    norm_num
    rfl
  refine ⟨?_, ?_, ?_, ?_⟩
  · rw [splitBySizeJS, limitBytes, jsOrTen, if_neg hq, jsRound]
  · rw [splitBySizeJS]
    rw [hten]
  · rw [splitBySizeJS, limitBytes, jsOrTen, if_pos rfl, jsRound]
    norm_num
    rfl
  · rw [limitBytes, jsOrTen, if_neg (by norm_num), jsRound]
    norm_num
    rfl

/-- Concrete instance of C9: a 1.5 MB request is compared against a 2 MB byte
limit. -/
theorem C9_limit_rounding_witness :
    ((3 : ℚ) / 2 ≠ 0)
    ∧ splitBySizeJS (fun _ _ => 0) 0 (.num (3 / 2))
        = splitBySizeCore (fun _ _ => 0) 0 ((max 1 ⌊(3 : ℚ) / 2 + 1 / 2⌋).toNat * 1048576)
    ∧ limitBytes (.num (3 / 2)) = 2097152 := by
  have h := C9_limit_rounding (fun _ _ => 0) 0 (3 / 2) (by norm_num)
  exact ⟨by norm_num, h.1, h.2.2.2⟩

/-- ASCII whitespace as matched by the `\s` class of the JavaScript regexes
(space, tab, line feed, carriage return, vertical tab, form feed). -/
def jsWs (c : Char) : Bool :=
  c == ' ' || c == '\t' || c == '\n' || c == '\r' || c == '\x0b' || c == '\x0c'

/-- The `\w` class of the JavaScript regexes: ASCII letters, digits and
underscore. -/
def jsWord (c : Char) : Bool :=
  c.isAlphanum || c == '_'

/-- Regular-expression atoms used by the three literal patterns of
`cleanContentStream`: a literal character, a greedy `+` over a character
class, a greedy `*` over a class, and a lazy `*?` over a class. -/
inductive RE where
  | lit : Char → RE
  | plusG : (Char → Bool) → RE
  | starG : (Char → Bool) → RE
  | starL : (Char → Bool) → RE

/-- Backtracking matcher with JavaScript priorities: greedy quantifiers try to
consume first, lazy quantifiers try the continuation first.  Returns the
remaining suffix after a successful match of the whole pattern list at the
head of the input. -/
def reMatch : Nat → List RE → List Char → Option (List Char)
  | 0, _, _ => none
  | _ + 1, [], s => some s
  | fuel + 1, .lit c :: ps, s =>
    match s with
    | c2 :: rest => if c2 = c then reMatch fuel ps rest else none
    | [] => none
  | fuel + 1, .plusG p :: ps, s =>
    match s with
    | c2 :: rest => if p c2 then reMatch fuel (.starG p :: ps) rest else none
    | [] => none
  | fuel + 1, .starG p :: ps, s =>
    match (match s with
           | c2 :: rest => if p c2 then reMatch fuel (.starG p :: ps) rest else none
           | [] => none) with
    | some r => some r
    | none => reMatch fuel ps s
  | fuel + 1, .starL p :: ps, s =>
    match reMatch fuel ps s with
    | some r => some r
    | none =>
      match s with
      | c2 :: rest => if p c2 then reMatch fuel (.starL p :: ps) rest else none
      | [] => none

/-- The pattern `q[^Q]*?\/\w+\s+Do\s*Q` of pdf-processor.js line 1743. -/
def patQBlock : List RE :=
  [.lit 'q', .starL (fun c => !(c == 'Q')), .lit '/', .plusG jsWord, .plusG jsWs,
    .lit 'D', .lit 'o', .starG jsWs, .lit 'Q']

/-- The pattern `\/\w+\s+Do` of pdf-processor.js line 1744. -/
def patNameDo : List RE :=
  [.lit '/', .plusG jsWord, .plusG jsWs, .lit 'D', .lit 'o']

/-- The pattern `BI\s+[\s\S]*?\s+ID\s+[\s\S]*?\s+EI` of pdf-processor.js line
1745. -/
def patInline : List RE :=
  [.lit 'B', .lit 'I', .plusG jsWs, .starL (fun _ => true), .plusG jsWs,
    .lit 'I', .lit 'D', .plusG jsWs, .starL (fun _ => true), .plusG jsWs,
    .lit 'E', .lit 'I']

/-- Global replacement with the empty string: scan left to right, delete each
leftmost match and continue after it, as `String.prototype.replace` with a
global regex does. -/
def stripPat (pats : List RE) : Nat → List Char → List Char
  | 0, s => s
  | _ + 1, [] => []
  | fuel + 1, c :: rest =>
    match reMatch ((c :: rest).length + 20) pats (c :: rest) with
    | some rem =>
      if rem.length < rest.length + 1 then stripPat pats fuel rem
      else c :: stripPat pats fuel rest
    | none => c :: stripPat pats fuel rest

def replaceAllPat (pats : List RE) (s : List Char) : List Char :=
  stripPat pats (s.length + 1) s

/-- The three successive global replacements of `cleanContentStream`
(pdf-processor.js lines 1743-1745), in source order. -/
def cleanImageOps (s : List Char) : List Char :=
  replaceAllPat patInline (replaceAllPat patNameDo (replaceAllPat patQBlock s))

/-- A successful match consumes a prefix: the returned remainder is a suffix
of the input. -/
theorem reMatch_suffix :
    ∀ fuel ps s r, reMatch fuel ps s = some r → r <:+ s := by
  intro fuel
  induction fuel with
  | zero => intro ps s r h; simp [reMatch] at h
  | succ fuel ih =>
    intro ps s r h
    cases ps with
    | nil =>
      simp only [reMatch, Option.some.injEq] at h
      exact h ▸ List.suffix_refl s
    | cons hd ps =>
      cases hd with
      | lit c =>
        cases s with
        | nil => simp [reMatch] at h
        | cons c2 rest =>
          simp only [reMatch] at h
          split_ifs at h
          exact (ih _ _ _ h).trans (List.suffix_cons c2 rest)
      | plusG p =>
        cases s with
        | nil => simp [reMatch] at h
        | cons c2 rest =>
          simp only [reMatch] at h
          split_ifs at h
          exact (ih _ _ _ h).trans (List.suffix_cons c2 rest)
      | starG p =>
        simp only [reMatch] at h
        cases hinner : (match s with
            | c2 :: rest => if p c2 then reMatch fuel (.starG p :: ps) rest else none
            | [] => none) with
        | some r2 =>
          rw [hinner] at h
          simp only [Option.some.injEq] at h
          subst h
          cases s with
          | nil => simp at hinner
          | cons c2 rest =>
            simp only at hinner
            split_ifs at hinner
            exact (ih _ _ _ hinner).trans (List.suffix_cons c2 rest)
        | none =>
          rw [hinner] at h
          exact ih _ _ _ h
      | starL p =>
        simp only [reMatch] at h
        cases houter : reMatch fuel ps s with
        | some r2 =>
          rw [houter] at h
          simp only [Option.some.injEq] at h
          subst h
          exact ih _ _ _ houter
        | none =>
          rw [houter] at h
          cases s with
          | nil => simp at h
          | cons c2 rest =>
            simp only at h
            split_ifs at h
            exact (ih _ _ _ h).trans (List.suffix_cons c2 rest)

theorem stripPat_sublist (pats : List RE) :
    ∀ fuel s, (stripPat pats fuel s).Sublist s := by
  intro fuel
  induction fuel with
  | zero =>
    intro s
    rw [stripPat]
  | succ fuel ih =>
    intro s
    cases s with
    | nil =>
      rw [stripPat]
    | cons c rest =>
      rw [stripPat]
      cases hm : reMatch ((c :: rest).length + 20) pats (c :: rest) with
      | none =>
        show (c :: stripPat pats fuel rest).Sublist (c :: rest)
        exact List.Sublist.cons₂ c (ih rest)
      | some rem =>
        show (if rem.length < rest.length + 1 then stripPat pats fuel rem
              else c :: stripPat pats fuel rest).Sublist (c :: rest)
        by_cases hlen : rem.length < rest.length + 1
        · rw [if_pos hlen]
          exact (ih rem).trans (reMatch_suffix _ _ _ _ hm).sublist
        · rw [if_neg hlen]
          exact List.Sublist.cons₂ c (ih rest)

/-- C5 (amended): content-stream editing only deletes characters — the edited
stream is a subsequence of the original, so every retained byte keeps its
original relative order — but the deleted regions are textual pattern matches
and can swallow non-image operators, so the sequence of non-`Do` operators is
not preserved in general (see the counterexample). -/
theorem C5_edit_only_deletes (s : List Char) : (cleanImageOps s).Sublist s := by
  simp only [cleanImageOps, replaceAllPat]
  exact ((stripPat_sublist patInline _ _).trans (stripPat_sublist patNameDo _ _)).trans
    (stripPat_sublist patQBlock _ _)

/-- C5 counterexample: in the operator sequence
`BT (q A) Tj ET q /Im1 Do Q` the letter q inside the string literal `(q A)`
starts a textual match that swallows the text-showing operator `Tj`, although
`Tj` is outside the balanced `q ... /Im1 Do Q` block: a non-image operator is
removed, refuting operator-sequence preservation. -/
theorem C5_counterexample :
    cleanImageOps "BT (q A) Tj ET q /Im1 Do Q".data = "BT (".data
    ∧ "BT (q A) Tj ET q /Im1 Do Q".data.countP (fun c => c == 'j') = 1
    ∧ "BT (".data.countP (fun c => c == 'j') = 0 := by
  exact ⟨by decide, by decide, by decide⟩


/-- Result of `cleanContentStream` for one page (pdf-processor.js lines
1738-1757): the final decoded Contents text together with a flag telling
whether the Contents entry was rewritten (as a freshly flate-compressed
stream).  The entry is rewritten only when the edited text differs from the
original and is non-empty after trimming (`modified !== contentStream &&
modified.trim()`). -/
def cleanContentStreamResult (orig : List Char) : List Char × Bool :=
  if (cleanImageOps orig != orig) && (cleanImageOps orig).any (fun c => !jsWs c) then
    (cleanImageOps orig, true)
  else (orig, false)

/-- C10: when removing image operators yields an empty or whitespace-only
text, the page's Contents entry is left unchanged — the original stream,
image-painting operators included, is retained; the entry is rewritten only
when the edited text is non-empty after trimming and differs from the
original. -/
theorem C10_contents_frame (orig : List Char) :
    ((cleanImageOps orig).all jsWs → cleanContentStreamResult orig = (orig, false))
    ∧ (cleanContentStreamResult orig = (orig, false)
        ∨ (cleanContentStreamResult orig = (cleanImageOps orig, true)
            ∧ cleanImageOps orig ≠ orig
            ∧ (cleanImageOps orig).any (fun c => !jsWs c) = true)) := by
  constructor
  · intro hall
    have hany : (cleanImageOps orig).any (fun c => !jsWs c) = false := by
      rw [List.any_eq_false]
      intro c hc
      have hws := List.all_eq_true.mp hall c hc
      simp [hws]
    rw [cleanContentStreamResult, hany]
    simp
  · rw [cleanContentStreamResult]
    by_cases hcond : ((cleanImageOps orig != orig)
        && (cleanImageOps orig).any (fun c => !jsWs c)) = true
    · right
      rw [if_pos hcond]
      rw [Bool.and_eq_true] at hcond
      exact ⟨rfl, bne_iff_ne.mp hcond.1, hcond.2⟩
    · left
      rw [if_neg hcond]

/-- Concrete instance of C10: the stream `q /Im1 Do Q` cleans to the empty
text, so the original Contents entry is retained. -/
theorem C10_contents_frame_witness :
    ((cleanImageOps "q /Im1 Do Q".data).all jsWs = true)
    ∧ cleanContentStreamResult "q /Im1 Do Q".data = ("q /Im1 Do Q".data, false) := by
  have h := C10_contents_frame "q /Im1 Do Q".data
  exact ⟨by decide, h.1 (by decide)⟩

/-- Subtype tag of an XObject dictionary entry, as compared on
pdf-processor.js line 1668 (`subtype.encodedName === '/Image'`). -/
inductive XKind where
  | image : XKind
  | form : XKind
  | other : XKind
  deriving DecidableEq, Repr

/-- A page for the image-removal pass: the optional XObject dictionary as an
ordered list of (name, subtype) entries, plus the decoded Contents text. -/
structure PageModel where
  xobjects : Option (List (String × XKind))
  contents : List Char
  deriving DecidableEq, Repr

/-- `removeImagesFromPage` (pdf-processor.js lines 1633-1704): rebuild the
XObject dictionary keeping only non-image entries in order, delete the
XObject key when no non-image entry remains, then clean the content stream. -/
def removeImagesFromPage (p : PageModel) : PageModel :=
  let newX :=
    match p.xobjects with
    | none => none
    | some entries =>
      let kept := entries.filter (fun e => !(e.2 == XKind.image))
      if kept.isEmpty then none else some kept
  ⟨newX, (cleanContentStreamResult p.contents).1⟩

/-- C6 (amended): after `removeImagesFromPage` the page's XObject dictionary
references zero Image XObjects — the key is deleted exactly when no non-image
entry remains, and non-image entries are preserved in order — and in the
concrete one-image-plus-one-text-block scenario with a conventional stream
the text is still present in the rebuilt contents.  Text survival does not
hold for arbitrary streams (see the counterexample). -/
theorem C6_xobjects_removed (entries : List (String × XKind)) (cs : List Char) :
    ((removeImagesFromPage ⟨some entries, cs⟩).xobjects = none
        ∨ (removeImagesFromPage ⟨some entries, cs⟩).xobjects
            = some (entries.filter (fun e => !(e.2 == XKind.image))))
    ∧ (∀ l, (removeImagesFromPage ⟨some entries, cs⟩).xobjects = some l →
        ∀ e ∈ l, e.2 ≠ XKind.image)
    ∧ ((removeImagesFromPage ⟨some entries, cs⟩).xobjects = none
        ↔ entries.filter (fun e => !(e.2 == XKind.image)) = [])
    ∧ (removeImagesFromPage ⟨some [("Im1", XKind.image)],
          "q /Im1 Do Q BT (Hello) Tj ET".data⟩).contents
        = " BT (Hello) Tj ET".data := by
  have hx : (removeImagesFromPage ⟨some entries, cs⟩).xobjects
      = if (entries.filter (fun e => !(e.2 == XKind.image))).isEmpty then none
        else some (entries.filter (fun e => !(e.2 == XKind.image))) := by
    rw [removeImagesFromPage]
  refine ⟨?_, ?_, ?_, by decide⟩
  · rw [hx]
    by_cases he : (entries.filter (fun e => !(e.2 == XKind.image))).isEmpty
    · rw [if_pos he]
      exact Or.inl rfl
    · rw [if_neg he]
      exact Or.inr rfl
  · intro l hl e hel
    rw [hx] at hl
    split at hl
    · simp at hl
    · simp only [Option.some.injEq] at hl
      subst hl
      have := List.of_mem_filter hel
      simpa using this
  · rw [hx]
    by_cases he : (entries.filter (fun e => !(e.2 == XKind.image))).isEmpty
    · rw [if_pos he]
      exact iff_of_true rfl (List.isEmpty_iff.mp he)
    · rw [if_neg he]
      exact iff_of_false (by simp) (fun h2 => he (List.isEmpty_iff.mpr h2))

/-- Instance of C6 discharging the inner hypotheses at a concrete page: the
form XObject entry is kept and is not an image. -/
theorem C6_xobjects_removed_witness :
    (("Fm1", XKind.form) : String × XKind).2 ≠ XKind.image := by
  have h := C6_xobjects_removed [("Im1", XKind.image), ("Fm1", XKind.form)] "BT".data
  exact h.2.1 [("Fm1", XKind.form)] (by decide) ("Fm1", XKind.form) (by decide)

/-- C6 counterexample: a page with one image XObject and one text block whose
string literal contains the letter q.  After removal the page references zero
Image XObjects, but the text operators are gone from the rebuilt contents:
the text-showing operator `Tj` does not survive. -/
theorem C6_counterexample :
    (removeImagesFromPage ⟨some [("Im1", XKind.image)],
        "BT (q A) Tj ET q /Im1 Do Q".data⟩).xobjects = none
    ∧ (removeImagesFromPage ⟨some [("Im1", XKind.image)],
        "BT (q A) Tj ET q /Im1 Do Q".data⟩).contents = "BT (".data
    ∧ (removeImagesFromPage ⟨some [("Im1", XKind.image)],
        "BT (q A) Tj ET q /Im1 Do Q".data⟩).contents.countP (fun c => c == 'j') = 0
    ∧ "BT (q A) Tj ET q /Im1 Do Q".data.countP (fun c => c == 'j') = 1 := by
  exact ⟨by decide, by decide, by decide, by decide⟩

/-- A decoded raster bitmap, as produced by the external codec
(`createImageBitmap`). -/
structure Bitmap where
  width : Nat
  height : Nat
  deriving DecidableEq, Repr

/-- The external image codec: one decoder per hypothesized container format
(untyped, then image/jpeg, image/jp2, image/jpx, image/png), plus the
canvas-and-`toBlob` JPEG encoder, which may fail (a null blob). -/
structure Codec where
  decodeUntyped : List Nat → Option Bitmap
  decodeJpeg : List Nat → Option Bitmap
  decodeJp2 : List Nat → Option Bitmap
  decodeJpx : List Nat → Option Bitmap
  decodePng : List Nat → Option Bitmap
  encodeJpeg : Bitmap → Nat → Nat → ℚ → Option (List Nat)

/-- An Image XObject as accessed by `recompressJpeg`: the Width and Height
attributes and the raw encoded bytes (`getContents()`; `none` models a null
result). -/
structure ImageXObject where
  width : Nat
  height : Nat
  raw : Option (List Nat)
  deriving DecidableEq, Repr

/-- The decode hypotheses tried in order on pdf-processor.js lines
1198-1213. -/
def tryDecode (c : Codec) (raw : List Nat) : Option Bitmap :=
  match c.decodeUntyped raw with
  | some b => some b
  | none =>
    match c.decodeJpeg raw with
    | some b => some b
    | none =>
      match c.decodeJp2 raw with
      | some b => some b
      | none =>
        match c.decodeJpx raw with
        | some b => some b
        | none => c.decodePng raw

/-- Downscale heuristic of pdf-processor.js lines 1188-1190: quality fraction
at most 0.3 scales by 0.6, otherwise at most 0.5 scales by 0.75, otherwise
unscaled. -/
def recompressScale (q : ℚ) : ℚ :=
  if q ≤ 3 / 10 then 3 / 5 else if q ≤ 1 / 2 then 3 / 4 else 1

/-- `recompressJpeg` (pdf-processor.js lines 1176-1234) for one image; `q` is
the quality fraction `Math.max(0.1, Math.min(1, quality / 100))`.  Returns
the new JPEG bytes when the image is replaced, and `none` when the image and
its resource entry are left untouched: missing data or dimensions, decode
failure across all hypotheses, a failed encode, or a re-encoding at least as
large as the original (with non-empty original bytes). -/
def recompressJpeg (c : Codec) (q : ℚ) (img : ImageXObject) : Option (List Nat) :=
  match img.raw with
  | none => none
  | some raw =>
    if img.width = 0 ∨ img.height = 0 then none
    else
      match tryDecode c raw with
      | none => none
      | some bmp =>
        match c.encodeJpeg bmp
            (max 1 (⌊(img.width : ℚ) * recompressScale q⌋).toNat)
            (max 1 (⌊(img.height : ℚ) * recompressScale q⌋).toNat) q with
        | none => none
        | some newBytes =>
          if raw.length ≠ 0 ∧ raw.length ≤ newBytes.length then none
          else some newBytes

/-- The caller's view (pdf-processor.js lines 1226-1230): on success the
resource dictionary entry for the image name is repointed to the freshly
embedded JPEG and the replaced counter is incremented; otherwise the entry
and the counter are untouched. -/
def applyRecompress (c : Codec) (q : ℚ) (img : ImageXObject) (replaced : Nat) :
    ImageXObject × Nat :=
  match recompressJpeg c q img with
  | none => (img, replaced)
  | some newBytes => (⟨img.width, img.height, some newBytes⟩, replaced + 1)

theorem recompressJpeg_none (c : Codec) (q : ℚ) (img : ImageXObject)
    (hdec : ∀ raw, img.raw = some raw → tryDecode c raw = none) :
    recompressJpeg c q img = none := by
  rw [recompressJpeg]
  cases himg : img.raw with
  | none => rfl
  | some raw =>
    dsimp only
    by_cases hwh : img.width = 0 ∨ img.height = 0
    · rw [if_pos hwh]
    · rw [if_neg hwh, hdec raw himg]

theorem recompressJpeg_smaller (c : Codec) (q : ℚ) (img : ImageXObject)
    (hempty : tryDecode c [] = none) (newBytes : List Nat)
    (h : recompressJpeg c q img = some newBytes) :
    ∃ raw, img.raw = some raw ∧ newBytes.length < raw.length := by
  rw [recompressJpeg] at h
  cases himg : img.raw with
  | none =>
    rw [himg] at h
    simp at h
  | some raw =>
    rw [himg] at h
    dsimp only at h
    refine ⟨raw, rfl, ?_⟩
    by_cases hwh : img.width = 0 ∨ img.height = 0
    · rw [if_pos hwh] at h
      simp at h
    · rw [if_neg hwh] at h
      cases hdec : tryDecode c raw with
      | none =>
        rw [hdec] at h
        simp at h
      | some bmp =>
        rw [hdec] at h
        dsimp only at h
        have hraw : raw ≠ [] := by
          intro hnil
          rw [hnil, hempty] at hdec
          simp at hdec
        cases henc : c.encodeJpeg bmp
            (max 1 (⌊(img.width : ℚ) * recompressScale q⌋).toNat)
            (max 1 (⌊(img.height : ℚ) * recompressScale q⌋).toNat) q with
        | none =>
          rw [henc] at h
          simp at h
        | some nb =>
          rw [henc] at h
          dsimp only at h
          by_cases hc : raw.length ≠ 0 ∧ raw.length ≤ nb.length
          · rw [if_pos hc] at h
            simp at h
          · rw [if_neg hc] at h
            simp only [Option.some.injEq] at h
            subst h
            push_neg at hc
            have hlen : raw.length ≠ 0 := by
              intro h0
              exact hraw (List.length_eq_zero.mp h0)
            exact hc hlen

/-- C4: an image for which no decode hypothesis succeeds is left completely
untouched, with no error raised and no counter change (a silent per-image
no-op); and a re-encoded JPEG replaces the original — entry repointed,
replaced count incremented — only when its byte length is strictly smaller
than the original encoded byte length.  The codec hypothesis states that no
decoder accepts empty input, as holds for `createImageBitmap`. -/
theorem C4_recompress_policy (c : Codec) (q : ℚ) (img : ImageXObject)
    (replaced : Nat) (hempty : tryDecode c [] = none) :
    ((∀ raw, img.raw = some raw → tryDecode c raw = none) →
        applyRecompress c q img replaced = (img, replaced))
    ∧ (∀ newBytes, recompressJpeg c q img = some newBytes →
        ∃ raw, img.raw = some raw ∧ newBytes.length < raw.length)
    ∧ (∀ img2 n2, applyRecompress c q img replaced = (img2, n2) →
        (img2 = img ∧ n2 = replaced)
          ∨ (n2 = replaced + 1 ∧ ∃ raw newBytes, img.raw = some raw
              ∧ img2.raw = some newBytes ∧ newBytes.length < raw.length)) := by
  refine ⟨?_, fun nb h => recompressJpeg_smaller c q img hempty nb h, ?_⟩
  · intro hdec
    rw [applyRecompress, recompressJpeg_none c q img hdec]
  · intro img2 n2 happ
    rw [applyRecompress] at happ
    cases hrec : recompressJpeg c q img with
    | none =>
      rw [hrec] at happ
      simp only [Prod.mk.injEq] at happ
      exact Or.inl ⟨happ.1.symm, happ.2.symm⟩
    | some nb =>
      rw [hrec] at happ
      simp only [Prod.mk.injEq] at happ
      obtain ⟨h1, h2⟩ := happ
      obtain ⟨raw, hraw, hlt⟩ := recompressJpeg_smaller c q img hempty nb hrec
      refine Or.inr ⟨h2.symm, raw, nb, hraw, ?_, hlt⟩
      rw [← h1]

/-- A codec for the C4 instance: nothing decodes. -/
def cxCodec : Codec :=
  ⟨fun _ => none, fun _ => none, fun _ => none, fun _ => none, fun _ => none,
    fun _ _ _ _ => some [7, 7]⟩

/-- Concrete instance of C4: with no decodable payload the image entry and
counter are untouched. -/
theorem C4_recompress_policy_witness :
    tryDecode cxCodec [] = none
    ∧ applyRecompress cxCodec 1 ⟨2, 2, some [9, 9, 9]⟩ 0 = (⟨2, 2, some [9, 9, 9]⟩, 0) := by
  have h := C4_recompress_policy cxCodec 1 ⟨2, 2, some [9, 9, 9]⟩ 0 (by decide)
  exact ⟨by decide, h.1 (fun raw _ => rfl)⟩

/-- Result of `compressToTargetSize`: either the unmodified document returned
by the early exit (`qualityUsed: 100`), or the candidate selected by the
quality search with its quality and measured byte size. -/
inductive CTResult where
  | asIs (bytes : Nat) : CTResult
  | tuned (quality bytes : Nat) : CTResult
  deriving DecidableEq, Repr

/-- Candidate score of `compressToTargetSize` (pdf-processor.js line 1326):
`bytes <= targetBytes ? targetBytes - bytes : bytes - targetBytes +
10_000_000`. -/
def ctScore (targetBytes bytes : Nat) : Nat :=
  if bytes ≤ targetBytes then targetBytes - bytes else bytes - targetBytes + 10000000

/-- Quality binary search of `compressToTargetSize` (pdf-processor.js lines
1312-1338), run for exactly six iterations.  `sizeAt q` is the measured
serialized size of a fresh clone of the source recompressed at quality `q`.
`best` is `none` until the first iteration installs a candidate: the initial
JS `best` carries no `score` field, so the first comparison is against
`Infinity`.  The stored triple is (score, quality, bytes). -/
def ctLoop (sizeAt : Nat → Nat) (targetBytes : Nat) :
    Nat → Nat → Nat → Option (Nat × Nat × Nat) → Option (Nat × Nat × Nat)
  | 0, _, _, best => best
  | iter + 1, lowQ, highQ, best =>
    let mid := (lowQ + highQ) / 2
    let bytes := sizeAt mid
    let score := ctScore targetBytes bytes
    let best2 :=
      match best with
      | none => some (score, mid, bytes)
      | some b => if score < b.1 then some (score, mid, bytes) else some b
    if targetBytes < bytes then
      ctLoop sizeAt targetBytes iter lowQ (max lowQ (mid - 1)) best2
    else
      ctLoop sizeAt targetBytes iter (min 100 (mid + 1)) highQ best2

/-- Target byte size of `compressToTargetSize` (pdf-processor.js line 1303):
`Math.max(1, Math.round(Number(targetMB) * 1024 * 1024))`. -/
def ctTargetBytes (targetMB : ℚ) : Nat :=
  (max 1 (jsRound (targetMB * 1048576))).toNat

/-- `compressToTargetSize` (pdf-processor.js lines 1294-1342): early exit
with the unmodified document when the baseline save already meets the target,
otherwise six binary-search iterations over quality in [10, 90] and return of
the tracked best candidate. -/
def compressToTargetSize (baseline : Nat) (sizeAt : Nat → Nat) (targetMB : ℚ) :
    CTResult :=
  if baseline ≤ ctTargetBytes targetMB then .asIs baseline
  else
    match ctLoop sizeAt (ctTargetBytes targetMB) 6 10 90 none with
    | some (_, qq, b) => .tuned qq b
    | none => .tuned 10 baseline

/-- Probe sizes for the C7 failing input: quality 50 measures one byte over
the target, every other quality measures about 1 MB, far below it. -/
def szC7 : Nat → Nat := fun q => if q = 50 then 22020097 else 1000000 + q

/-- C7: evaluation at the failing input `targetMB = 21`, baseline 30,000,000
bytes.  The probed qualities are 50, 29, 39, 44, 47, 48; quality 50 measures
22,020,097 bytes (one over target) with score 10,000,001, while the fitting
candidates (for example quality 29, 1,000,029 bytes) score their distance
below target, about 21,000,000 — more than the 10,000,000 penalty offset.
The search therefore keeps the oversized candidate and returns a document
over the target although fitting candidates were measured, contradicting the
code's own comment "Track best candidate not exceeding target" and the
claim.  The early-exit path is also evaluated. -/
theorem C7_bug_eval :
    ctTargetBytes 21 = 22020096
    ∧ compressToTargetSize 30000000 szC7 21 = CTResult.tuned 50 22020097
    ∧ 22020096 < 22020097
    ∧ szC7 29 ≤ 22020096 ∧ szC7 48 ≤ 22020096
    ∧ compressToTargetSize 1000 szC7 21 = CTResult.asIs 1000 := by
  have ht : ctTargetBytes 21 = 22020096 := by
    rw [ctTargetBytes, jsRound]
    norm_num
    rfl
  refine ⟨ht, ?_, by omega, by decide, by decide, ?_⟩
  · rw [compressToTargetSize, ht]
    rw [if_neg (by omega)]
    decide
  · rw [compressToTargetSize, ht]
    rw [if_pos (by omega)]
